import Mathlib

/-!
Verification of the r-shquote library: POSIX-shell-style `quote` and `unquote`
operations over strings, modelled as lists of Unicode scalar values
(`List Char`).  The embedding follows `src/lib.rs`: the Rust cursor
(`source.char_indices().enumerate()`) is modelled by passing the remaining
character list together with the current character index `idx` and the current
UTF-8 byte offset `pos`; each consumed character `c` advances `idx` by one and
`pos` by `c.utf8Size`, exactly as `CharIndices` does.  The mutable output
accumulator is threaded explicitly.
-/

/-- The single-quote character (U+0027).  Named to keep the development free of
quote-heavy character literals. -/
def squote : Char := Char.ofNat 39

/-- The backtick character (U+0060). -/
def backtick : Char := Char.ofNat 96

/-- UTF-8 byte length of a string, as Rust `str::len` computes it: the sum of
the UTF-8 sizes of its characters. -/
def utf8Length (l : List Char) : Nat := (l.map Char.utf8Size).sum

@[simp] theorem utf8Length_nil : utf8Length [] = 0 := rfl

@[simp] theorem utf8Length_cons (c : Char) (l : List Char) :
    utf8Length (c :: l) = c.utf8Size + utf8Length l := rfl

@[simp] theorem utf8Length_append (a b : List Char) :
    utf8Length (a ++ b) = utf8Length a + utf8Length b := by
  induction a with
  | nil => simp
  | cons c a ih => simp [ih, Nat.add_assoc]

/-- Error information for unquote operations, mirroring the Rust enum
`UnquoteError`: the character index and byte offset of the cursor where the
offending opening quote was recognized. -/
inductive UnquoteError where
  | UnterminatedSingleQuote (char_cursor byte_cursor : Nat)
  | UnterminatedDoubleQuote (char_cursor byte_cursor : Nat)
deriving DecidableEq, Repr

instance {ε α : Type} [DecidableEq ε] [DecidableEq α] : DecidableEq (Except ε α) := fun a b =>
  match a, b with
  | .ok x, .ok y => if h : x = y then .isTrue (by rw [h]) else .isFalse (by simp [h])
  | .error x, .error y => if h : x = y then .isTrue (by rw [h]) else .isFalse (by simp [h])
  | .ok _, .error _ => .isFalse (by simp)
  | .error _, .ok _ => .isFalse (by simp)

/-- Embedding of `fn quote(source: &str) -> String` from `src/lib.rs`:
split the input on the single-quote character, open a single quote, emit the
first segment, then each following segment preceded by the four characters
quote backslash quote quote, and close with a final single quote. -/
def quote (source : List Char) : List Char :=
  let parts := source.splitOn squote
  let acc : List Char := [squote]
  let acc := acc ++ parts.headD []
  let acc := (parts.drop 1).foldl (fun a part => a ++ ([squote, '\\', squote, squote] ++ part)) acc
  acc ++ [squote]

/-- Embedding of `fn unquote_open_single` from `src/lib.rs`.  The Rust
function receives the mutable accumulator and the cursor positioned just past
the opening single quote and returns a success flag; here the accumulator and
cursor (remaining characters, character index, byte offset) are threaded
explicitly and `none` models the `false` (unterminated) return. -/
def unquote_open_single (acc rest : List Char) (idx pos : Nat) :
    Option (List Char × List Char × Nat × Nat) :=
  match rest with
  | [] => none
  | c :: cs =>
    if c = squote then some (acc, cs, idx + 1, pos + c.utf8Size)
    else unquote_open_single (acc ++ [c]) cs (idx + 1) (pos + c.utf8Size)

/-- Embedding of `fn unquote_open_double` from `src/lib.rs`: decode a
double-quote sequence.  An unescaped double quote closes the sequence; a
backslash followed by one of double quote, backslash, backtick, dollar or
newline appends just that escaped character; a backslash followed by any other
character appends the backslash and that character verbatim; a backslash at
the end of input, or end of input itself, means the sequence is unterminated
(`none`). -/
def unquote_open_double (acc rest : List Char) (idx pos : Nat) :
    Option (List Char × List Char × Nat × Nat) :=
  match rest with
  | [] => none
  | c :: cs =>
    if c = '"' then some (acc, cs, idx + 1, pos + c.utf8Size)
    else if c = '\\' then
      match cs with
      | [] => none
      | e :: es =>
        if e = '"' ∨ e = '\\' ∨ e = backtick ∨ e = '$' ∨ e = '\n' then
          unquote_open_double (acc ++ [e]) es (idx + 1 + 1) (pos + c.utf8Size + e.utf8Size)
        else
          unquote_open_double (acc ++ ['\\', e]) es (idx + 1 + 1) (pos + c.utf8Size + e.utf8Size)
    else
      unquote_open_double (acc ++ [c]) cs (idx + 1) (pos + c.utf8Size)

/-- Embedding of `fn unquote_open_escape` from `src/lib.rs`: decode an escape
sequence outside of any quote.  The next character is appended literally,
except a literal newline which is dropped; if there is no next character,
nothing is appended and no error is raised. -/
def unquote_open_escape (acc rest : List Char) (idx pos : Nat) :
    List Char × List Char × Nat × Nat :=
  match rest with
  | [] => (acc, [], idx, pos)
  | e :: es =>
    if e = '\n' then (acc, es, idx + 1, pos + e.utf8Size)
    else (acc ++ [e], es, idx + 1, pos + e.utf8Size)

theorem unquote_open_single_length {acc rest : List Char} {idx pos : Nat}
    {a2 r2 : List Char} {i2 p2 : Nat}
    (h : unquote_open_single acc rest idx pos = some (a2, r2, i2, p2)) :
    r2.length < rest.length := by
  induction rest generalizing acc idx pos with
  | nil => simp [unquote_open_single] at h
  | cons c cs ih =>
    rw [unquote_open_single] at h
    split at h
    · simp only [Option.some.injEq, Prod.mk.injEq] at h
      obtain ⟨-, h2, -, -⟩ := h
      simp [← h2]
    · exact Nat.lt_trans (ih h) (Nat.lt_succ_self _)

theorem unquote_open_double_length {acc rest : List Char} {idx pos : Nat}
    {a2 r2 : List Char} {i2 p2 : Nat}
    (h : unquote_open_double acc rest idx pos = some (a2, r2, i2, p2)) :
    r2.length < rest.length := by
  induction acc, rest, idx, pos using unquote_open_double.induct with
  | case1 acc idx pos => simp [unquote_open_double] at h
  | case2 acc idx pos es =>
    rw [unquote_open_double.eq_def] at h
    simp at h
    obtain ⟨-, h2, -, -⟩ := h
    subst h2
    simp
  | case3 acc idx pos hne =>
    rw [unquote_open_double.eq_def] at h
    simp at h
  | case4 acc idx pos e es he hne ih =>
    rw [unquote_open_double.eq_def] at h
    simp only [if_neg (by decide : ¬('\\' : Char) = '"'), if_pos he] at h
    have := ih h
    simp only [List.length_cons]
    omega
  | case5 acc idx pos e es he hne ih =>
    rw [unquote_open_double.eq_def] at h
    simp only [if_neg (by decide : ¬('\\' : Char) = '"'), if_neg he] at h
    have := ih h
    simp only [List.length_cons]
    omega
  | case6 acc idx pos e es hne1 hne2 ih =>
    rw [unquote_open_double.eq_def] at h
    simp only [if_neg hne1, if_neg hne2] at h
    have := ih h
    simp only [List.length_cons]
    omega

theorem unquote_open_escape_length {acc rest : List Char} {idx pos : Nat}
    {a2 r2 : List Char} {i2 p2 : Nat}
    (h : unquote_open_escape acc rest idx pos = (a2, r2, i2, p2)) :
    r2.length ≤ rest.length := by
  cases rest with
  | nil =>
    simp only [unquote_open_escape, Prod.mk.injEq] at h
    obtain ⟨-, h2, -, -⟩ := h
    simp [← h2]
  | cons e es =>
    rw [unquote_open_escape.eq_def] at h
    simp only at h
    split at h <;>
    · simp only [Prod.mk.injEq] at h
      obtain ⟨-, h2, -, -⟩ := h
      subst h2
      simp

/-- Embedding of the main loop of `fn unquote` from `src/lib.rs`: scan the
input character by character; a single quote or double quote dispatches into
the corresponding sub-parser (failure producing the error that carries the
character index and byte offset of the opening quote), a backslash dispatches
into the escape sub-parser, any other character is copied verbatim, and end of
input returns the accumulator. -/
def unquote_loop (acc rest : List Char) (idx pos : Nat) : Except UnquoteError (List Char) :=
  match rest with
  | [] => .ok acc
  | c :: cs =>
    if c = squote then
      match h : unquote_open_single acc cs (idx + 1) (pos + c.utf8Size) with
      | some (acc2, cs2, idx2, pos2) => unquote_loop acc2 cs2 idx2 pos2
      | none => .error (.UnterminatedSingleQuote idx pos)
    else if c = '"' then
      match h : unquote_open_double acc cs (idx + 1) (pos + c.utf8Size) with
      | some (acc2, cs2, idx2, pos2) => unquote_loop acc2 cs2 idx2 pos2
      | none => .error (.UnterminatedDoubleQuote idx pos)
    else if c = '\\' then
      match h : unquote_open_escape acc cs (idx + 1) (pos + c.utf8Size) with
      | (acc2, cs2, idx2, pos2) => unquote_loop acc2 cs2 idx2 pos2
    else
      unquote_loop (acc ++ [c]) cs (idx + 1) (pos + c.utf8Size)
termination_by rest.length
decreasing_by
  · exact Nat.lt_trans (unquote_open_single_length h) (Nat.lt_succ_self _)
  · exact Nat.lt_trans (unquote_open_double_length h) (Nat.lt_succ_self _)
  · exact Nat.lt_of_le_of_lt (unquote_open_escape_length h) (Nat.lt_succ_self _)
  · simp

/-- Embedding of `fn unquote(source: &str) -> Result<String, UnquoteError>`
from `src/lib.rs`: run the main loop from an empty accumulator with the cursor
at character index 0 and byte offset 0. -/
def unquote (source : List Char) : Except UnquoteError (List Char) :=
  unquote_loop [] source 0 0

@[simp] theorem squote_utf8Size : squote.utf8Size = 1 := rfl

theorem unquote_open_single_none_iff {acc rest : List Char} {idx pos : Nat} :
    unquote_open_single acc rest idx pos = none ↔ squote ∉ rest := by
  induction rest generalizing acc idx pos with
  | nil => simp [unquote_open_single]
  | cons c cs ih =>
    rw [unquote_open_single]
    split
    · rename_i hc
      simp [hc]
    · rename_i hc
      simp only [ih, List.mem_cons]
      constructor
      · intro hn h2
        rcases h2 with h2 | h2
        · exact hc h2.symm
        · exact hn h2
      · intro hn
        intro h2
        exact hn (Or.inr h2)

/-- Successful run of the single-quote sub-parser: the input decomposes as the
copied text, the closing quote, and the remainder, and the cursor coordinates
advance by exactly the consumed characters and bytes. -/
theorem unquote_open_single_cursor {acc rest : List Char} {idx pos : Nat}
    {a2 r2 : List Char} {i2 p2 : Nat}
    (h : unquote_open_single acc rest idx pos = some (a2, r2, i2, p2)) :
    ∃ t, rest = t ++ squote :: r2 ∧ a2 = acc ++ t ∧ squote ∉ t ∧
      i2 = idx + (t.length + 1) ∧ p2 = pos + (utf8Length t + 1) := by
  induction rest generalizing acc idx pos with
  | nil => simp [unquote_open_single] at h
  | cons c cs ih =>
    rw [unquote_open_single] at h
    split at h
    · rename_i hc
      simp only [Option.some.injEq, Prod.mk.injEq] at h
      obtain ⟨h1, h2, h3, h4⟩ := h
      refine ⟨[], ?_, ?_, ?_, ?_, ?_⟩ <;> simp [hc, ← h1, ← h2, ← h3, ← h4]
    · rename_i hc
      obtain ⟨t, ht, ha, hm, hi, hp⟩ := ih h
      refine ⟨c :: t, ?_, ?_, ?_, ?_, ?_⟩
      · simp [ht]
      · simp [ha]
      · simp only [List.mem_cons, not_or]
        exact ⟨fun hq => hc hq.symm, hm⟩
      · simp only [List.length_cons, hi]
        omega
      · simp only [utf8Length_cons, hp]
        omega

/-- Successful run of the double-quote sub-parser: the remainder is a suffix
of the input, the cursor coordinates advance by exactly the consumed
characters and bytes, and the produced output is no longer (in UTF-8 bytes)
than the consumed input. -/
theorem unquote_open_double_cursor {acc rest : List Char} {idx pos : Nat}
    {a2 r2 : List Char} {i2 p2 : Nat}
    (h : unquote_open_double acc rest idx pos = some (a2, r2, i2, p2)) :
    ∃ t u, rest = t ++ r2 ∧ a2 = acc ++ u ∧
      i2 = idx + t.length ∧ p2 = pos + utf8Length t ∧ utf8Length u ≤ utf8Length t := by
  induction acc, rest, idx, pos using unquote_open_double.induct with
  | case1 acc idx pos => simp [unquote_open_double] at h
  | case2 acc idx pos es =>
    rw [unquote_open_double.eq_def] at h
    simp at h
    obtain ⟨h1, h2, h3, h4⟩ := h
    subst h2
    refine ⟨['"'], [], by simp, by simp [← h1], ?_, ?_, by simp⟩
    · simp only [List.length_cons, List.length_nil]
      omega
    · simp only [utf8Length_cons, utf8Length_nil]
      omega
  | case3 acc idx pos hne =>
    rw [unquote_open_double.eq_def] at h
    simp at h
  | case4 acc idx pos e es he hne ih =>
    rw [unquote_open_double.eq_def] at h
    simp only [if_neg (by decide : ¬('\\' : Char) = '"'), if_pos he] at h
    obtain ⟨t, u, ht, ha, hi, hp, hu⟩ := ih h
    refine ⟨'\\' :: e :: t, e :: u, by simp [ht], by simp [ha], ?_, ?_, ?_⟩
    · simp only [List.length_cons, hi]
      omega
    · simp only [utf8Length_cons, hp]
      omega
    · simp only [utf8Length_cons]
      omega
  | case5 acc idx pos e es he hne ih =>
    rw [unquote_open_double.eq_def] at h
    simp only [if_neg (by decide : ¬('\\' : Char) = '"'), if_neg he] at h
    obtain ⟨t, u, ht, ha, hi, hp, hu⟩ := ih h
    refine ⟨'\\' :: e :: t, '\\' :: e :: u, by simp [ht], by simp [ha], ?_, ?_, ?_⟩
    · simp only [List.length_cons, hi]
      omega
    · simp only [utf8Length_cons, hp]
      omega
    · simp only [utf8Length_cons]
      omega
  | case6 acc idx pos e es hne1 hne2 ih =>
    rw [unquote_open_double.eq_def] at h
    simp only [if_neg hne1, if_neg hne2] at h
    obtain ⟨t, u, ht, ha, hi, hp, hu⟩ := ih h
    refine ⟨e :: t, e :: u, by simp [ht], by simp [ha], ?_, ?_, ?_⟩
    · simp only [List.length_cons, hi]
      omega
    · simp only [utf8Length_cons, hp]
      omega
    · simp only [utf8Length_cons]
      omega

/-- Run of the escape sub-parser: the remainder is a suffix of the input, the
cursor coordinates advance by exactly the consumed characters and bytes, and
the produced output is no longer (in UTF-8 bytes) than the consumed input. -/
theorem unquote_open_escape_cursor {acc rest : List Char} {idx pos : Nat}
    {a2 r2 : List Char} {i2 p2 : Nat}
    (h : unquote_open_escape acc rest idx pos = (a2, r2, i2, p2)) :
    ∃ t u, rest = t ++ r2 ∧ a2 = acc ++ u ∧
      i2 = idx + t.length ∧ p2 = pos + utf8Length t ∧ utf8Length u ≤ utf8Length t := by
  cases rest with
  | nil =>
    simp only [unquote_open_escape, Prod.mk.injEq] at h
    obtain ⟨h1, h2, h3, h4⟩ := h
    subst h2
    refine ⟨[], [], by simp, by simp [← h1], ?_, ?_, by simp⟩
    · simp only [List.length_nil]
      omega
    · simp only [utf8Length_nil]
      omega
  | cons e es =>
    rw [unquote_open_escape.eq_def] at h
    simp only at h
    split at h
    · rename_i hne
      simp only [Prod.mk.injEq] at h
      obtain ⟨h1, h2, h3, h4⟩ := h
      subst h2
      exact ⟨[e], [], by simp, by simp [← h1], by simpa using h3.symm, by simpa using h4.symm, by simp⟩
    · rename_i hne
      simp only [Prod.mk.injEq] at h
      obtain ⟨h1, h2, h3, h4⟩ := h
      subst h2
      refine ⟨[e], [e], by simp, by simp [← h1], by simpa using h3.symm, by simpa using h4.symm, by simp⟩

/-- Whether a double-quote run starting at the cursor reaches an unescaped
closing double quote before the input ends.  This predicate mirrors the
character-consumption pattern of `unquote_open_double` (a backslash always
consumes the following character as well); it lets unterminatedness be stated
independently of the accumulator and cursor coordinates. -/
def dq_terminates : List Char → Bool
  | [] => false
  | c :: cs =>
    if c = '"' then true
    else if c = '\\' then
      match cs with
      | [] => false
      | _ :: es => dq_terminates es
    else dq_terminates cs

theorem unquote_open_double_none_iff {acc rest : List Char} {idx pos : Nat} :
    unquote_open_double acc rest idx pos = none ↔ dq_terminates rest = false := by
  induction rest using dq_terminates.induct generalizing acc idx pos with
  | case1 => simp [unquote_open_double, dq_terminates]
  | case2 cs =>
    rw [unquote_open_double.eq_def, dq_terminates.eq_def]
    simp
  | case3 =>
    rw [unquote_open_double.eq_def, dq_terminates.eq_def]
    simp
  | case4 e es hne ih =>
    rw [unquote_open_double.eq_def, dq_terminates.eq_def]
    simp only [reduceIte]
    split
    · simp
    · split
      · exact ih
      · exact ih
  | case5 c cs hne1 hne2 ih =>
    rw [unquote_open_double.eq_def, dq_terminates.eq_def]
    simp only [if_neg hne1, if_neg hne2]
    exact ih

/-- Running the single-quote sub-parser on a quote-free prefix followed by a
closing single quote copies the prefix verbatim, consumes the closing quote
without output, and leaves the remainder untouched. -/
theorem unquote_open_single_copy {pre : List Char} (hp : squote ∉ pre)
    (acc suf : List Char) (idx pos : Nat) :
    unquote_open_single acc (pre ++ squote :: suf) idx pos
      = some (acc ++ pre, suf, idx + (pre.length + 1), pos + (utf8Length pre + 1)) := by
  induction pre generalizing acc idx pos with
  | nil =>
    rw [List.nil_append, unquote_open_single]
    simp
  | cons c pre ih =>
    have hc : ¬c = squote := fun h => hp (by simp [h])
    have hp2 : squote ∉ pre := fun h => hp (by simp [h])
    rw [List.cons_append, unquote_open_single, if_neg hc, ih hp2]
    simp only [Option.some.injEq, Prod.mk.injEq, List.length_cons, utf8Length_cons]
    refine ⟨by simp, trivial, by omega, by omega⟩

/-- The text `quote` emits after the first segment: each further segment is
preceded by the four characters quote backslash quote quote. -/
def quote_glue_tail : List (List Char) → List Char
  | [] => []
  | q :: qs => [squote, '\\', squote, squote] ++ q ++ quote_glue_tail qs

/-- The original text recovered from the segments after the first one: each
further segment is preceded by the single-quote character on which the input
was split. -/
def join_tail : List (List Char) → List Char
  | [] => []
  | q :: qs => squote :: q ++ join_tail qs

theorem foldl_quote_glue (l : List (List Char)) (a : List Char) :
    l.foldl (fun a part => a ++ ([squote, '\\', squote, squote] ++ part)) a
      = a ++ quote_glue_tail l := by
  induction l generalizing a with
  | nil => simp [quote_glue_tail]
  | cons q qs ih =>
    rw [List.foldl_cons, ih, quote_glue_tail]
    simp

theorem quote_parts {s p : List Char} {ps : List (List Char)}
    (h : s.splitOn squote = p :: ps) :
    quote s = squote :: (p ++ quote_glue_tail ps) ++ [squote] := by
  rw [quote]
  simp only [h, foldl_quote_glue, List.headD_cons, List.drop_one, List.tail_cons]
  simp

theorem splitOn_ne_nil (c : Char) (s : List Char) : s.splitOn c ≠ [] := by
  simp only [List.splitOn]
  exact List.splitOnP_ne_nil _ _

theorem splitOnP_parts (p : α → Bool) :
    ∀ {xs : List α} {l : List α}, l ∈ xs.splitOnP p → ∀ y ∈ l, ¬ p y := by
  intro xs
  induction xs with
  | nil =>
    intro l hl y hy
    simp only [List.splitOnP_nil, List.mem_singleton] at hl
    subst hl
    simp at hy
  | cons x xs ih =>
    intro l hl y hy
    rw [List.splitOnP_cons] at hl
    by_cases hx : p x
    · simp only [hx, if_true, List.mem_cons] at hl
      rcases hl with hl | hl
      · subst hl
        simp at hy
      · exact ih hl y hy
    · simp only [hx, if_false] at hl
      obtain ⟨r0, rs, hr⟩ : ∃ r0 rs, xs.splitOnP p = r0 :: rs := by
        cases h : xs.splitOnP p with
        | nil => exact absurd h (List.splitOnP_ne_nil _ _)
        | cons a b => exact ⟨a, b, rfl⟩
      rw [hr] at hl
      simp only [Bool.false_eq_true, if_false, List.modifyHead_cons, List.mem_cons] at hl
      rcases hl with hl | hl
      · subst hl
        rcases List.mem_cons.1 hy with hy | hy
        · subst hy
          exact hx
        · exact ih (by rw [hr]; exact List.mem_cons_self _ _) y hy
      · exact ih (by rw [hr]; exact List.mem_cons_of_mem _ hl) y hy

theorem splitOn_parts_not_mem {s : List Char} {l : List Char}
    (hl : l ∈ s.splitOn squote) : squote ∉ l := by
  intro hmem
  have := splitOnP_parts (fun y => y == squote) (by simpa [List.splitOn] using hl) squote hmem
  simp at this

theorem intercalate_squote_eq (ps : List (List Char)) (p : List Char) :
    [squote].intercalate (p :: ps) = p ++ join_tail ps := by
  induction ps generalizing p with
  | nil => simp [List.intercalate, join_tail]
  | cons q qs ih =>
    rw [join_tail]
    have : [squote].intercalate (p :: q :: qs) = p ++ [squote] ++ [squote].intercalate (q :: qs) := by
      simp [List.intercalate, List.intersperse]
    rw [this, ih]
    simp

/-- Every string is the first segment of its single-quote split, followed by
the remaining segments each preceded by a single quote. -/
theorem split_join (s p : List Char) (ps : List (List Char))
    (h : s.splitOn squote = p :: ps) : p ++ join_tail ps = s := by
  have := List.intercalate_splitOn s squote
  rw [h, intercalate_squote_eq] at this
  exact this

theorem unquote_loop_nil (acc : List Char) (idx pos : Nat) :
    unquote_loop acc [] idx pos = .ok acc := by
  rw [unquote_loop.eq_def]

theorem unquote_loop_single_step {acc rest : List Char} {idx pos : Nat}
    {a2 r2 : List Char} {i2 p2 : Nat}
    (h : unquote_open_single acc rest (idx + 1) (pos + squote.utf8Size) = some (a2, r2, i2, p2)) :
    unquote_loop acc (squote :: rest) idx pos = unquote_loop a2 r2 i2 p2 := by
  rw [unquote_loop.eq_def]
  simp only [eq_self_iff_true, ite_true]
  split
  · rename_i a3 r3 i3 p3 h3
    have := h.symm.trans h3
    simp only [Option.some.injEq, Prod.mk.injEq] at this
    obtain ⟨e1, e2, e3, e4⟩ := this
    rw [e1, e2, e3, e4]
  · rename_i h3
    rw [h3] at h
    exact absurd h (by simp)

theorem unquote_loop_single_fail {acc rest : List Char} {idx pos : Nat}
    (h : unquote_open_single acc rest (idx + 1) (pos + squote.utf8Size) = none) :
    unquote_loop acc (squote :: rest) idx pos = .error (.UnterminatedSingleQuote idx pos) := by
  rw [unquote_loop.eq_def]
  simp only [eq_self_iff_true, ite_true]
  split
  · rename_i a3 r3 i3 p3 h3
    rw [h3] at h
    exact absurd h (by simp)
  · rfl

theorem unquote_loop_double_step {acc rest : List Char} {idx pos : Nat}
    {a2 r2 : List Char} {i2 p2 : Nat}
    (h : unquote_open_double acc rest (idx + 1) (pos + Char.utf8Size '"') = some (a2, r2, i2, p2)) :
    unquote_loop acc ('"' :: rest) idx pos = unquote_loop a2 r2 i2 p2 := by
  rw [unquote_loop.eq_def]
  simp only [if_neg (by decide : ¬('"' : Char) = squote), eq_self_iff_true, ite_true]
  split
  · rename_i a3 r3 i3 p3 h3
    have := h.symm.trans h3
    simp only [Option.some.injEq, Prod.mk.injEq] at this
    obtain ⟨e1, e2, e3, e4⟩ := this
    rw [e1, e2, e3, e4]
  · rename_i h3
    rw [h3] at h
    exact absurd h (by simp)

theorem unquote_loop_double_fail {acc rest : List Char} {idx pos : Nat}
    (h : unquote_open_double acc rest (idx + 1) (pos + Char.utf8Size '"') = none) :
    unquote_loop acc ('"' :: rest) idx pos = .error (.UnterminatedDoubleQuote idx pos) := by
  rw [unquote_loop.eq_def]
  simp only [if_neg (by decide : ¬('"' : Char) = squote), eq_self_iff_true, ite_true]
  split
  · rename_i a3 r3 i3 p3 h3
    rw [h3] at h
    exact absurd h (by simp)
  · rfl

theorem unquote_loop_escape_step {acc rest : List Char} {idx pos : Nat}
    {a2 r2 : List Char} {i2 p2 : Nat}
    (h : unquote_open_escape acc rest (idx + 1) (pos + Char.utf8Size '\\') = (a2, r2, i2, p2)) :
    unquote_loop acc ('\\' :: rest) idx pos = unquote_loop a2 r2 i2 p2 := by
  rw [unquote_loop.eq_def]
  simp only [if_neg (by decide : ¬('\\' : Char) = squote),
    if_neg (by decide : ¬('\\' : Char) = '"'), eq_self_iff_true, ite_true]
  rw [h]

theorem unquote_loop_plain_step {c : Char} {acc rest : List Char} {idx pos : Nat}
    (h1 : ¬c = squote) (h2 : ¬c = '"') (h3 : ¬c = '\\') :
    unquote_loop acc (c :: rest) idx pos
      = unquote_loop (acc ++ [c]) rest (idx + 1) (pos + c.utf8Size) := by
  rw [unquote_loop.eq_def]
  simp only [if_neg h1, if_neg h2, if_neg h3]

theorem unquote_open_escape_cons {e : Char} (hne : ¬e = '\n') (acc rest : List Char)
    (idx pos : Nat) :
    unquote_open_escape acc (e :: rest) idx pos = (acc ++ [e], rest, idx + 1, pos + e.utf8Size) := by
  rw [unquote_open_escape]
  rw [if_neg hne]

/-- Parsing one single-quoted run produced by `quote`: the body is the first
segment followed by, for each later segment, the closing quote, an escaped
single quote, a reopening quote, and the segment; the parse appends the
segments joined by single quotes to the accumulator and continues after the
final closing quote. -/
theorem unquote_loop_quoted :
    ∀ (ps : List (List Char)) (p : List Char), squote ∉ p → (∀ q ∈ ps, squote ∉ q) →
    ∀ (acc cont : List Char) (idx pos : Nat), ∃ i2 p2,
      unquote_loop acc (squote :: (p ++ (quote_glue_tail ps ++ squote :: cont))) idx pos
        = unquote_loop (acc ++ (p ++ join_tail ps)) cont i2 p2 := by
  intro ps
  induction ps with
  | nil =>
    intro p hp _ acc cont idx pos
    refine ⟨idx + 1 + (p.length + 1), pos + squote.utf8Size + (utf8Length p + 1), ?_⟩
    rw [quote_glue_tail, List.nil_append]
    rw [unquote_loop_single_step (unquote_open_single_copy hp acc cont _ _)]
    simp [join_tail]
  | cons q qs ih =>
    intro p hp hqs acc cont idx pos
    have hq : squote ∉ q := hqs q (List.mem_cons_self _ _)
    have hqs2 : ∀ r ∈ qs, squote ∉ r := fun r hr => hqs r (List.mem_cons_of_mem _ hr)
    obtain ⟨i2, p2, hih⟩ := ih q hq hqs2 (acc ++ p ++ [squote]) cont
      (idx + 1 + (p.length + 1) + 1 + 1) (pos + squote.utf8Size + (utf8Length p + 1)
        + Char.utf8Size '\\' + squote.utf8Size)
    refine ⟨i2, p2, ?_⟩
    rw [quote_glue_tail]
    have hshape : p ++ (([squote, '\\', squote, squote] ++ q ++ quote_glue_tail qs) ++ squote :: cont)
        = p ++ squote :: ('\\' :: (squote :: (squote :: (q ++ (quote_glue_tail qs ++ squote :: cont))))) := by
      simp
    rw [hshape]
    rw [unquote_loop_single_step (unquote_open_single_copy hp acc _ _ _)]
    rw [unquote_loop_escape_step
      (unquote_open_escape_cons (show ¬squote = '\n' by decide) (acc ++ p) _ _ _)]
    rw [hih]
    have : acc ++ p ++ [squote] ++ (q ++ join_tail qs) = acc ++ (p ++ join_tail (q :: qs)) := by
      simp [join_tail]
    rw [this]

/-- The main loop never produces more UTF-8 bytes than the accumulator plus
the remaining input hold. -/
theorem unquote_loop_ok_utf8 {acc rest : List Char} {idx pos : Nat} {out : List Char}
    (h : unquote_loop acc rest idx pos = .ok out) :
    utf8Length out ≤ utf8Length acc + utf8Length rest := by
  induction acc, rest, idx, pos using unquote_loop.induct with
  | case1 acc idx pos =>
    rw [unquote_loop_nil] at h
    simp only [Except.ok.injEq] at h
    subst h
    simp
  | case2 acc idx pos cs acc2 cs2 idx2 pos2 hstep ih =>
    rw [unquote_loop_single_step hstep] at h
    obtain ⟨t, ht, ha, -, -, -⟩ := unquote_open_single_cursor hstep
    have := ih h
    subst ht
    subst ha
    simp only [utf8Length_append, utf8Length_cons, squote_utf8Size] at this ⊢
    omega
  | case3 acc idx pos cs hstep =>
    rw [unquote_loop_single_fail hstep] at h
    exact absurd h (by simp)
  | case4 acc idx pos cs acc2 cs2 idx2 pos2 hne hstep ih =>
    rw [unquote_loop_double_step hstep] at h
    obtain ⟨t, u, ht, ha, -, -, hu⟩ := unquote_open_double_cursor hstep
    have := ih h
    subst ht
    subst ha
    simp only [utf8Length_append, utf8Length_cons] at this ⊢
    omega
  | case5 acc idx pos cs hne hstep =>
    rw [unquote_loop_double_fail hstep] at h
    exact absurd h (by simp)
  | case6 acc idx pos cs acc2 cs2 idx2 pos2 hne1 hne2 hstep ih =>
    rw [unquote_loop_escape_step hstep] at h
    obtain ⟨t, u, ht, ha, -, -, hu⟩ := unquote_open_escape_cursor hstep
    have := ih h
    subst ht
    subst ha
    simp only [utf8Length_append, utf8Length_cons] at this ⊢
    omega
  | case7 acc idx pos c cs hne1 hne2 hne3 ih =>
    rw [unquote_loop_plain_step hne1 hne2 hne3] at h
    have := ih h
    simp only [utf8Length_append, utf8Length_cons, utf8Length_nil] at this ⊢
    omega

/-- When the main loop reports an unterminated single quote, the reported
character index and byte offset are exactly those of a single-quote character
in the remaining input after which no further single quote occurs. -/
theorem unquote_loop_err_single {acc rest : List Char} {idx pos : Nat} {i p : Nat}
    (h : unquote_loop acc rest idx pos = .error (.UnterminatedSingleQuote i p)) :
    ∃ pre suf, rest = pre ++ squote :: suf ∧ i = idx + pre.length ∧
      p = pos + utf8Length pre ∧ squote ∉ suf := by
  induction acc, rest, idx, pos using unquote_loop.induct with
  | case1 acc idx pos =>
    rw [unquote_loop_nil] at h
    exact absurd h (by simp)
  | case2 acc idx pos cs acc2 cs2 idx2 pos2 hstep ih =>
    rw [unquote_loop_single_step hstep] at h
    obtain ⟨pre2, suf2, hcs2, hi, hp, hn⟩ := ih h
    obtain ⟨t, ht, -, -, hidx2, hpos2⟩ := unquote_open_single_cursor hstep
    refine ⟨squote :: (t ++ squote :: pre2), suf2, ?_, ?_, ?_, hn⟩
    · simp [ht, hcs2]
    · simp only [hi, hidx2, List.length_cons, List.length_append]
      omega
    · simp only [hp, hpos2, utf8Length_cons, utf8Length_append, squote_utf8Size]
      omega
  | case3 acc idx pos cs hstep =>
    rw [unquote_loop_single_fail hstep] at h
    simp only [Except.error.injEq, UnquoteError.UnterminatedSingleQuote.injEq] at h
    obtain ⟨hi, hp⟩ := h
    refine ⟨[], cs, by simp, by simp [hi], by simp [hp], ?_⟩
    exact unquote_open_single_none_iff.mp hstep
  | case4 acc idx pos cs acc2 cs2 idx2 pos2 hne hstep ih =>
    rw [unquote_loop_double_step hstep] at h
    obtain ⟨pre2, suf2, hcs2, hi, hp, hn⟩ := ih h
    obtain ⟨t, u, ht, -, hidx2, hpos2, -⟩ := unquote_open_double_cursor hstep
    refine ⟨'"' :: (t ++ pre2), suf2, ?_, ?_, ?_, hn⟩
    · simp [ht, hcs2]
    · simp only [hi, hidx2, List.length_cons, List.length_append]
      omega
    · simp only [hp, hpos2, utf8Length_cons, utf8Length_append]
      omega
  | case5 acc idx pos cs hne hstep =>
    rw [unquote_loop_double_fail hstep] at h
    exact absurd h (by simp)
  | case6 acc idx pos cs acc2 cs2 idx2 pos2 hne1 hne2 hstep ih =>
    rw [unquote_loop_escape_step hstep] at h
    obtain ⟨pre2, suf2, hcs2, hi, hp, hn⟩ := ih h
    obtain ⟨t, u, ht, -, hidx2, hpos2, -⟩ := unquote_open_escape_cursor hstep
    refine ⟨'\\' :: (t ++ pre2), suf2, ?_, ?_, ?_, hn⟩
    · simp [ht, hcs2]
    · simp only [hi, hidx2, List.length_cons, List.length_append]
      omega
    · simp only [hp, hpos2, utf8Length_cons, utf8Length_append]
      omega
  | case7 acc idx pos c cs hne1 hne2 hne3 ih =>
    rw [unquote_loop_plain_step hne1 hne2 hne3] at h
    obtain ⟨pre2, suf2, hcs2, hi, hp, hn⟩ := ih h
    refine ⟨c :: pre2, suf2, ?_, ?_, ?_, hn⟩
    · simp [hcs2]
    · simp only [hi, List.length_cons]
      omega
    · simp only [hp, utf8Length_cons]
      omega

/-- When the main loop reports an unterminated double quote, the reported
character index and byte offset are exactly those of a double-quote character
in the remaining input from which no closing double quote is reachable. -/
theorem unquote_loop_err_double {acc rest : List Char} {idx pos : Nat} {i p : Nat}
    (h : unquote_loop acc rest idx pos = .error (.UnterminatedDoubleQuote i p)) :
    ∃ pre suf, rest = pre ++ '"' :: suf ∧ i = idx + pre.length ∧
      p = pos + utf8Length pre ∧ dq_terminates suf = false := by
  induction acc, rest, idx, pos using unquote_loop.induct with
  | case1 acc idx pos =>
    rw [unquote_loop_nil] at h
    exact absurd h (by simp)
  | case2 acc idx pos cs acc2 cs2 idx2 pos2 hstep ih =>
    rw [unquote_loop_single_step hstep] at h
    obtain ⟨pre2, suf2, hcs2, hi, hp, hn⟩ := ih h
    obtain ⟨t, ht, -, -, hidx2, hpos2⟩ := unquote_open_single_cursor hstep
    refine ⟨squote :: (t ++ squote :: pre2), suf2, ?_, ?_, ?_, hn⟩
    · simp [ht, hcs2]
    · simp only [hi, hidx2, List.length_cons, List.length_append]
      omega
    · simp only [hp, hpos2, utf8Length_cons, utf8Length_append, squote_utf8Size]
      omega
  | case3 acc idx pos cs hstep =>
    rw [unquote_loop_single_fail hstep] at h
    exact absurd h (by simp)
  | case4 acc idx pos cs acc2 cs2 idx2 pos2 hne hstep ih =>
    rw [unquote_loop_double_step hstep] at h
    obtain ⟨pre2, suf2, hcs2, hi, hp, hn⟩ := ih h
    obtain ⟨t, u, ht, -, hidx2, hpos2, -⟩ := unquote_open_double_cursor hstep
    refine ⟨'"' :: (t ++ pre2), suf2, ?_, ?_, ?_, hn⟩
    · simp [ht, hcs2]
    · simp only [hi, hidx2, List.length_cons, List.length_append]
      omega
    · simp only [hp, hpos2, utf8Length_cons, utf8Length_append]
      omega
  | case5 acc idx pos cs hne hstep =>
    rw [unquote_loop_double_fail hstep] at h
    simp only [Except.error.injEq, UnquoteError.UnterminatedDoubleQuote.injEq] at h
    obtain ⟨hi, hp⟩ := h
    refine ⟨[], cs, by simp, by simp [hi], by simp [hp], ?_⟩
    exact unquote_open_double_none_iff.mp hstep
  | case6 acc idx pos cs acc2 cs2 idx2 pos2 hne1 hne2 hstep ih =>
    rw [unquote_loop_escape_step hstep] at h
    obtain ⟨pre2, suf2, hcs2, hi, hp, hn⟩ := ih h
    obtain ⟨t, u, ht, -, hidx2, hpos2, -⟩ := unquote_open_escape_cursor hstep
    refine ⟨'\\' :: (t ++ pre2), suf2, ?_, ?_, ?_, hn⟩
    · simp [ht, hcs2]
    · simp only [hi, hidx2, List.length_cons, List.length_append]
      omega
    · simp only [hp, hpos2, utf8Length_cons, utf8Length_append]
      omega
  | case7 acc idx pos c cs hne1 hne2 hne3 ih =>
    rw [unquote_loop_plain_step hne1 hne2 hne3] at h
    obtain ⟨pre2, suf2, hcs2, hi, hp, hn⟩ := ih h
    refine ⟨c :: pre2, suf2, ?_, ?_, ?_, hn⟩
    · simp [hcs2]
    · simp only [hi, List.length_cons]
      omega
    · simp only [hp, utf8Length_cons]
      omega

/-- Input without quote characters always unquotes successfully: escape
sequences, malformed or not, never raise an error. -/
theorem unquote_loop_noquote_ok :
    ∀ (rest : List Char), squote ∉ rest → '"' ∉ rest →
    ∀ (acc : List Char) (idx pos : Nat), ∃ out, unquote_loop acc rest idx pos = .ok out := by
  suffices key : ∀ (n : Nat) (rest : List Char), rest.length ≤ n → squote ∉ rest → '"' ∉ rest →
      ∀ (acc : List Char) (idx pos : Nat), ∃ out, unquote_loop acc rest idx pos = .ok out by
    intro rest hs hd
    exact key rest.length rest le_rfl hs hd
  intro n
  induction n with
  | zero =>
    intro rest hlen hs hd acc idx pos
    match rest, hlen with
    | [], _ => exact ⟨acc, unquote_loop_nil acc idx pos⟩
  | succ n ih =>
    intro rest hlen hs hd acc idx pos
    match rest, hlen with
    | [], _ => exact ⟨acc, unquote_loop_nil acc idx pos⟩
    | c :: cs, hlen =>
      by_cases h1 : c = squote
      · subst h1
        exact absurd (List.mem_cons_self _ _) hs
      · by_cases h2 : c = '"'
        · subst h2
          exact absurd (List.mem_cons_self _ _) hd
        · by_cases h3 : c = '\\'
          · subst h3
            obtain ⟨⟨a2, r2, i2, p2⟩, hstep⟩ :
                ∃ r, unquote_open_escape acc cs (idx + 1) (pos + Char.utf8Size '\\') = r := ⟨_, rfl⟩
            obtain ⟨t, u, ht, -, -, -, -⟩ := unquote_open_escape_cursor hstep
            have hs2 : squote ∉ r2 := fun hm => hs (by simp [ht, hm])
            have hd2 : '"' ∉ r2 := fun hm => hd (by simp [ht, hm])
            have hlen2 : r2.length ≤ n := by
              have := unquote_open_escape_length hstep
              simp only [List.length_cons] at hlen
              omega
            obtain ⟨out, hout⟩ := ih r2 hlen2 hs2 hd2 a2 i2 p2
            exact ⟨out, by rw [unquote_loop_escape_step hstep, hout]⟩
          · have hs2 : squote ∉ cs := fun hm => hs (by simp [hm])
            have hd2 : '"' ∉ cs := fun hm => hd (by simp [hm])
            have hlen2 : cs.length ≤ n := by
              simp only [List.length_cons] at hlen
              omega
            obtain ⟨out, hout⟩ := ih cs hlen2 hs2 hd2 (acc ++ [c]) (idx + 1) (pos + c.utf8Size)
            exact ⟨out, by rw [unquote_loop_plain_step h1 h2 h3, hout]⟩

/-- Definition following the words of the specification (section 4.1): split
the input on the single-quote character into segments; emit a single quote,
the first segment verbatim, then for each subsequent segment the 4-character
sequence quote backslash quote quote followed by that segment verbatim, then
a final single quote. -/
def quote_spec_description (input : List Char) : List Char :=
  let segs := input.splitOn squote
  [squote] ++ segs.headD [] ++
    (segs.tail.map (fun seg => [squote, '\\', squote, squote] ++ seg)).flatten ++ [squote]

theorem quote_glue_tail_eq_flatten (ps : List (List Char)) :
    quote_glue_tail ps = (ps.map (fun seg => [squote, '\\', squote, squote] ++ seg)).flatten := by
  induction ps with
  | nil => simp [quote_glue_tail]
  | cons q qs ih => simp [quote_glue_tail, ih]

/-- C1: for every string s consisting of valid Unicode scalar values,
unquote (quote s) succeeds and returns exactly s. -/
theorem C1_roundtrip : ∀ s : List Char, unquote (quote s) = .ok s := by
  intro s
  obtain ⟨p, ps, hsplit⟩ : ∃ p ps, s.splitOn squote = p :: ps := by
    cases h : s.splitOn squote with
    | nil => exact absurd h (splitOn_ne_nil _ _)
    | cons a b => exact ⟨a, b, rfl⟩
  have hp : squote ∉ p := splitOn_parts_not_mem (by rw [hsplit]; exact List.mem_cons_self _ _)
  have hps : ∀ q ∈ ps, squote ∉ q := fun q hq =>
    splitOn_parts_not_mem (by rw [hsplit]; exact List.mem_cons_of_mem _ hq)
  have hshape : quote s = squote :: (p ++ (quote_glue_tail ps ++ squote :: ([] : List Char))) := by
    rw [quote_parts hsplit]
    simp
  obtain ⟨i2, p2, heq⟩ := unquote_loop_quoted ps p hp hps [] [] 0 0
  rw [unquote, hshape, heq, unquote_loop_nil, List.nil_append, split_join s p ps hsplit]

/-- C10: for every pair of strings a and b, the concatenation of quote a and
quote b unquotes successfully to a followed by b: quote always produces a
balanced output and unquote concatenates the decodings of successive quoted
runs. -/
theorem C10_quote_concat : ∀ a b : List Char, unquote (quote a ++ quote b) = .ok (a ++ b) := by
  intro a b
  obtain ⟨pa, psa, hsa⟩ : ∃ p ps, a.splitOn squote = p :: ps := by
    cases h : a.splitOn squote with
    | nil => exact absurd h (splitOn_ne_nil _ _)
    | cons x y => exact ⟨x, y, rfl⟩
  obtain ⟨pb, psb, hsb⟩ : ∃ p ps, b.splitOn squote = p :: ps := by
    cases h : b.splitOn squote with
    | nil => exact absurd h (splitOn_ne_nil _ _)
    | cons x y => exact ⟨x, y, rfl⟩
  have hpa : squote ∉ pa := splitOn_parts_not_mem (by rw [hsa]; exact List.mem_cons_self _ _)
  have hpsa : ∀ q ∈ psa, squote ∉ q := fun q hq =>
    splitOn_parts_not_mem (by rw [hsa]; exact List.mem_cons_of_mem _ hq)
  have hpb : squote ∉ pb := splitOn_parts_not_mem (by rw [hsb]; exact List.mem_cons_self _ _)
  have hpsb : ∀ q ∈ psb, squote ∉ q := fun q hq =>
    splitOn_parts_not_mem (by rw [hsb]; exact List.mem_cons_of_mem _ hq)
  have hshape : quote a ++ quote b
      = squote :: (pa ++ (quote_glue_tail psa ++ squote :: quote b)) := by
    rw [quote_parts hsa]
    simp
  obtain ⟨i2, p2, heq⟩ := unquote_loop_quoted psa pa hpa hpsa [] (quote b) 0 0
  rw [unquote, hshape, heq, List.nil_append, split_join a pa psa hsa]
  have hshapeb : quote b = squote :: (pb ++ (quote_glue_tail psb ++ squote :: ([] : List Char))) := by
    rw [quote_parts hsb]
    simp
  obtain ⟨i3, p3, heqb⟩ := unquote_loop_quoted psb pb hpb hpsb a [] i2 p2
  rw [hshapeb, heqb, unquote_loop_nil, split_join b pb psb hsb]

/-- C5: quote splits the input on the single-quote character, emits a single
quote, the first segment verbatim, then for each subsequent segment the
4-character sequence quote backslash quote quote followed by the segment,
then a final single quote; in particular quote of the empty string is the
2-character string of two single quotes and quote of a lone single quote is
the 6-character string quote quote backslash quote quote quote. -/
theorem C5_quote_shape : (∀ input : List Char, quote input = quote_spec_description input) ∧
    quote [] = [squote, squote] ∧
    quote [squote] = [squote, squote, '\\', squote, squote, squote] := by
  refine ⟨?_, by decide, by decide⟩
  intro input
  obtain ⟨p, ps, hsplit⟩ : ∃ p ps, input.splitOn squote = p :: ps := by
    cases h : input.splitOn squote with
    | nil => exact absurd h (splitOn_ne_nil _ _)
    | cons a b => exact ⟨a, b, rfl⟩
  rw [quote_parts hsplit, quote_spec_description]
  simp [hsplit, quote_glue_tail_eq_flatten]

/-- C2: the code at the input double-quote backslash newline double-quote.
The specification claims the escaped newline inside double quotes produces no
output; the code instead appends the newline character itself (the escaped
character is pushed for all five escapable characters alike), so the result
is the one-character newline string rather than the empty string. -/
theorem C2_code_eval : unquote ['"', '\\', '\n', '"'] = .ok ['\n'] := by
  simp [unquote, unquote_loop, unquote_open_double, squote, backtick]

/-- C3: whenever unquote fails, the error carries the character index and
byte offset of the unmatched opening quote character itself: the input
decomposes as a prefix of exactly that character length and byte length,
followed by the reported quote character; for a single quote no further
single quote follows it (so it is that specific unmatched quote, not an
earlier or later one), and for a double quote the run it opens never reaches
a closing double quote. -/
theorem C3_error_position : ∀ (s : List Char) (i p : Nat),
    (unquote s = .error (.UnterminatedSingleQuote i p) →
      ∃ pre suf, s = pre ++ squote :: suf ∧ i = pre.length ∧ p = utf8Length pre ∧
        squote ∉ suf) ∧
    (unquote s = .error (.UnterminatedDoubleQuote i p) →
      ∃ pre suf, s = pre ++ '"' :: suf ∧ i = pre.length ∧ p = utf8Length pre ∧
        dq_terminates suf = false) := by
  intro s i p
  constructor
  · intro h
    rw [unquote] at h
    obtain ⟨pre, suf, h1, h2, h3, h4⟩ := unquote_loop_err_single h
    exact ⟨pre, suf, h1, by simpa using h2, by simpa using h3, h4⟩
  · intro h
    rw [unquote] at h
    obtain ⟨pre, suf, h1, h2, h3, h4⟩ := unquote_loop_err_double h
    exact ⟨pre, suf, h1, by simpa using h2, by simpa using h3, h4⟩

theorem C3_error_position_witness :
    unquote [squote, 'a'] = .error (.UnterminatedSingleQuote 0 0) ∧
    ∃ pre suf, ([squote, 'a'] : List Char) = pre ++ squote :: suf ∧ 0 = pre.length ∧
      0 = utf8Length pre ∧ squote ∉ suf := by
  have hEval : unquote [squote, 'a'] = .error (.UnterminatedSingleQuote 0 0) := by
    simp [unquote, unquote_loop, unquote_open_single, squote]
  exact ⟨hEval, (C3_error_position [squote, 'a'] 0 0).1 hEval⟩

/-- C4: for every input on which unquote succeeds, the UTF-8 byte length of
the returned string is at most the UTF-8 byte length of the input. -/
theorem C4_output_never_longer : ∀ (s out : List Char),
    unquote s = .ok out → utf8Length out ≤ utf8Length s := by
  intro s out h
  rw [unquote] at h
  simpa using unquote_loop_ok_utf8 h

theorem C4_output_never_longer_witness :
    unquote [squote, 'a', squote] = .ok ['a'] ∧
    utf8Length ['a'] ≤ utf8Length [squote, 'a', squote] := by
  have hEval : unquote [squote, 'a', squote] = .ok ['a'] := by
    simp [unquote, unquote_loop, unquote_open_single, squote]
  exact ⟨hEval, C4_output_never_longer _ _ hEval⟩

/-- C6: a backslash that is the last character of the input is an error
inside an open double-quote sequence (the double-quote sub-parser reports
unterminated, and unquote fails with UnterminatedDoubleQuote), while outside
any quote it is silently dropped (the escape sub-parser appends nothing and
unquote succeeds). -/
theorem C6_trailing_backslash :
    (∀ (acc : List Char) (idx pos : Nat), unquote_open_double acc ['\\'] idx pos = none) ∧
    (∀ (acc : List Char) (idx pos : Nat),
      unquote_open_escape acc [] idx pos = (acc, [], idx, pos)) ∧
    unquote ['"', '\\'] = .error (.UnterminatedDoubleQuote 0 0) ∧
    unquote ['\\'] = .ok [] := by
  refine ⟨?_, ?_, ?_, ?_⟩
  · intro acc idx pos
    rw [unquote_open_double.eq_def]
    simp
  · intro acc idx pos
    rw [unquote_open_escape]
  · simp [unquote, unquote_loop, unquote_open_double, squote]
  · simp [unquote, unquote_loop, unquote_open_escape, squote]

/-- C7: inside a single-quote sequence every character before the next single
quote is appended verbatim (backslashes included) and the closing quote
produces no output; if no single quote remains the sub-parser fails, and the
whole unquote fails with UnterminatedSingleQuote at the opening quote. -/
theorem C7_single_quote_mode :
    (∀ (acc pre suf : List Char) (idx pos : Nat), squote ∉ pre →
      unquote_open_single acc (pre ++ squote :: suf) idx pos
        = some (acc ++ pre, suf, idx + (pre.length + 1), pos + (utf8Length pre + 1))) ∧
    (∀ (acc rest : List Char) (idx pos : Nat), squote ∉ rest →
      unquote_open_single acc rest idx pos = none) ∧
    (∀ pre : List Char, squote ∉ pre →
      unquote (squote :: pre) = .error (.UnterminatedSingleQuote 0 0)) := by
  refine ⟨?_, ?_, ?_⟩
  · intro acc pre suf idx pos hp
    exact unquote_open_single_copy hp acc suf idx pos
  · intro acc rest idx pos hr
    exact unquote_open_single_none_iff.mpr hr
  · intro pre hp
    rw [unquote]
    exact unquote_loop_single_fail (unquote_open_single_none_iff.mpr hp)

theorem C7_single_quote_mode_witness :
    unquote_open_single [] (['a', '\\'] ++ squote :: ['b']) 0 0
      = some (['a', '\\'], ['b'], 3, 3) ∧
    unquote (squote :: ['a', '\\']) = .error (.UnterminatedSingleQuote 0 0) := by
  constructor
  · have := C7_single_quote_mode.1 [] ['a', '\\'] ['b'] 0 0 (by decide)
    simpa using this
  · exact C7_single_quote_mode.2.2 ['a', '\\'] (by decide)

/-- C8: inside a double-quote sequence a backslash followed by any character
other than the five escapable ones is preserved verbatim: the backslash and
that character are both appended unchanged, and for example unquote of a
double-quoted a backslash q b yields a backslash q b. -/
theorem C8_unknown_escape :
    (∀ (acc : List Char) (e : Char) (es : List Char) (idx pos : Nat),
      ¬e = '"' → ¬e = '\\' → ¬e = backtick → ¬e = '$' → ¬e = '\n' →
      unquote_open_double acc ('\\' :: e :: es) idx pos
        = unquote_open_double (acc ++ ['\\', e]) es (idx + 1 + 1)
            (pos + Char.utf8Size '\\' + e.utf8Size)) ∧
    unquote ['"', 'a', '\\', 'q', 'b', '"'] = .ok ['a', '\\', 'q', 'b'] := by
  constructor
  · intro acc e es idx pos h1 h2 h3 h4 h5
    rw [unquote_open_double.eq_def]
    simp only [if_neg (by decide : ¬('\\' : Char) = '"'),
      if_neg (show ¬(e = '"' ∨ e = '\\' ∨ e = backtick ∨ e = '$' ∨ e = '\n') by
        simp [h1, h2, h3, h4, h5]), if_true]
  · simp [unquote, unquote_loop, unquote_open_double, squote, backtick]

theorem C8_unknown_escape_witness :
    unquote_open_double [] ['\\', 'q'] 0 0
      = unquote_open_double ['\\', 'q'] [] (0 + 1 + 1) (0 + Char.utf8Size '\\' + Char.utf8Size 'q') := by
  have := C8_unknown_escape.1 [] 'q' [] 0 0 (by decide) (by decide) (by decide) (by decide) (by decide)
  simpa using this

/-- Remainder of the input after a single-quote run: the suffix following the
next single-quote character, or `none` when no single quote remains (the run
is unterminated).  Input-only counterpart of the consumption performed by
`unquote_open_single` (section 4.3 of the specification: every character up to
the next single quote belongs to the run, with no escape sequences). -/
def sq_rest : List Char → Option (List Char)
  | [] => none
  | c :: cs => if c = squote then some cs else sq_rest cs

/-- Remainder of the input after a double-quote run: the suffix following the
closing unescaped double quote, or `none` when the run never closes.  A
backslash consumes the following character as well, exactly as in section 4.4
of the specification; input-only counterpart of the consumption performed by
`unquote_open_double`. -/
def dq_rest : List Char → Option (List Char)
  | [] => none
  | c :: cs =>
    if c = '"' then some cs
    else if c = '\\' then
      match cs with
      | [] => none
      | _ :: es => dq_rest es
    else dq_rest cs

mutual

/-- Input-only well-formedness scan of a whole input, the explicit three-mode
state machine the specification describes (sections 4.2 to 4.5 and section 9:
modes Plain, InSingle, InDouble): `has_unterminated_quote` scans in plain
mode, where a single or double quote enters the corresponding mode and a
backslash consumes the following character (so an escaped quote opens
nothing, and a trailing backslash is allowed); `unterminated_from_single` and
`unterminated_from_double` scan inside an open quote run and return to plain
mode at the closing quote.  The result is `true` exactly when some quote run
never closes before the input ends.  No parser state appears here, so the
predicate can stand on the right side of the error characterization. -/
def has_unterminated_quote : List Char → Bool
  | [] => false
  | c :: cs =>
    if c = squote then unterminated_from_single cs
    else if c = '"' then unterminated_from_double cs
    else if c = '\\' then
      match cs with
      | [] => false
      | _ :: es => has_unterminated_quote es
    else has_unterminated_quote cs

/-- Scan inside an open single-quote run (the specification's InSingle mode):
the next single quote returns to plain mode, the end of input means the run is
unterminated. -/
def unterminated_from_single : List Char → Bool
  | [] => true
  | c :: cs => if c = squote then has_unterminated_quote cs else unterminated_from_single cs

/-- Scan inside an open double-quote run (the specification's InDouble mode):
an unescaped double quote returns to plain mode, a backslash consumes the
following character, the end of input means the run is unterminated. -/
def unterminated_from_double : List Char → Bool
  | [] => true
  | c :: cs =>
    if c = '"' then has_unterminated_quote cs
    else if c = '\\' then
      match cs with
      | [] => true
      | _ :: es => unterminated_from_double es
    else unterminated_from_double cs

end

theorem sq_rest_length : ∀ {rest r : List Char}, sq_rest rest = some r → r.length < rest.length := by
  intro rest
  induction rest with
  | nil =>
    intro r h
    simp [sq_rest] at h
  | cons c cs ih =>
    intro r h
    rw [sq_rest] at h
    split at h
    · simp only [Option.some.injEq] at h
      subst h
      simp
    · exact Nat.lt_trans (ih h) (Nat.lt_succ_self _)

theorem dq_rest_length : ∀ {rest r : List Char}, dq_rest rest = some r → r.length < rest.length := by
  intro rest
  induction rest using dq_rest.induct with
  | case1 =>
    intro r h
    simp [dq_rest] at h
  | case2 cs =>
    intro r h
    rw [dq_rest.eq_def] at h
    simp at h
    subst h
    simp
  | case3 =>
    intro r h
    rw [dq_rest.eq_def] at h
    simp at h
  | case4 e es hne ih =>
    intro r h
    rw [dq_rest.eq_def] at h
    simp only [reduceIte] at h
    have := ih h
    simp only [List.length_cons]
    omega
  | case5 c cs hne1 hne2 ih =>
    intro r h
    rw [dq_rest.eq_def] at h
    simp only [if_neg hne1, if_neg hne2] at h
    have := ih h
    simp only [List.length_cons]
    omega

theorem sq_rest_none_iff {rest : List Char} : sq_rest rest = none ↔ squote ∉ rest := by
  induction rest with
  | nil => simp [sq_rest]
  | cons c cs ih =>
    rw [sq_rest]
    split
    · rename_i hc
      simp [hc]
    · rename_i hc
      simp only [ih, List.mem_cons]
      constructor
      · intro hn h2
        rcases h2 with h2 | h2
        · exact hc h2.symm
        · exact hn h2
      · intro hn h2
        exact hn (Or.inr h2)

/-- A terminating single-quote run as seen by the input-only scan is also
decoded by the single-quote sub-parser, leaving exactly the same remainder. -/
theorem single_some_of_sq_rest :
    ∀ (rest r : List Char), sq_rest rest = some r →
    ∀ (acc : List Char) (idx pos : Nat), ∃ a2 i2 p2,
      unquote_open_single acc rest idx pos = some (a2, r, i2, p2) := by
  intro rest
  induction rest with
  | nil =>
    intro r h
    simp [sq_rest] at h
  | cons c cs ih =>
    intro r h acc idx pos
    rw [sq_rest] at h
    by_cases hc : c = squote
    · rw [if_pos hc] at h
      simp only [Option.some.injEq] at h
      subst h
      exact ⟨acc, idx + 1, pos + c.utf8Size, by rw [unquote_open_single, if_pos hc]⟩
    · rw [if_neg hc] at h
      obtain ⟨a2, i2, p2, hh⟩ := ih r h (acc ++ [c]) (idx + 1) (pos + c.utf8Size)
      exact ⟨a2, i2, p2, by rw [unquote_open_single, if_neg hc]; exact hh⟩

theorem dq_rest_none_iff_terminates {rest : List Char} :
    dq_rest rest = none ↔ dq_terminates rest = false := by
  induction rest using dq_rest.induct with
  | case1 => simp [dq_rest, dq_terminates]
  | case2 cs =>
    rw [dq_rest.eq_def, dq_terminates.eq_def]
    simp
  | case3 =>
    rw [dq_rest.eq_def, dq_terminates.eq_def]
    simp
  | case4 e es hne ih =>
    rw [dq_rest.eq_def, dq_terminates.eq_def]
    simp only [reduceIte]
    exact ih
  | case5 c cs hne1 hne2 ih =>
    rw [dq_rest.eq_def, dq_terminates.eq_def]
    simp only [if_neg hne1, if_neg hne2]
    exact ih

/-- A terminating double-quote run as seen by the input-only scan is also
decoded by the double-quote sub-parser, leaving exactly the same remainder. -/
theorem double_some_of_dq_rest :
    ∀ (rest r : List Char), dq_rest rest = some r →
    ∀ (acc : List Char) (idx pos : Nat), ∃ a2 i2 p2,
      unquote_open_double acc rest idx pos = some (a2, r, i2, p2) := by
  intro rest
  induction rest using dq_rest.induct with
  | case1 =>
    intro r h
    simp [dq_rest] at h
  | case2 cs =>
    intro r h acc idx pos
    rw [dq_rest.eq_def] at h
    simp at h
    subst h
    refine ⟨acc, idx + 1, pos + Char.utf8Size '"', ?_⟩
    rw [unquote_open_double.eq_def]
    simp
  | case3 =>
    intro r h
    rw [dq_rest.eq_def] at h
    simp at h
  | case4 e es hne ih =>
    intro r h acc idx pos
    rw [dq_rest.eq_def] at h
    simp only [reduceIte] at h
    by_cases hesc : e = '"' ∨ e = '\\' ∨ e = backtick ∨ e = '$' ∨ e = '\n'
    · obtain ⟨a2, i2, p2, hh⟩ :=
        ih r h (acc ++ [e]) (idx + 1 + 1) (pos + Char.utf8Size '\\' + e.utf8Size)
      refine ⟨a2, i2, p2, ?_⟩
      rw [unquote_open_double.eq_def]
      simp only [if_neg (by decide : ¬('\\' : Char) = '"'), if_pos hesc, if_true]
      exact hh
    · obtain ⟨a2, i2, p2, hh⟩ :=
        ih r h (acc ++ ['\\', e]) (idx + 1 + 1) (pos + Char.utf8Size '\\' + e.utf8Size)
      refine ⟨a2, i2, p2, ?_⟩
      rw [unquote_open_double.eq_def]
      simp only [if_neg (by decide : ¬('\\' : Char) = '"'), if_neg hesc, if_true]
      exact hh
  | case5 c cs hne1 hne2 ih =>
    intro r h acc idx pos
    rw [dq_rest.eq_def] at h
    simp only [if_neg hne1, if_neg hne2] at h
    obtain ⟨a2, i2, p2, hh⟩ := ih r h (acc ++ [c]) (idx + 1) (pos + c.utf8Size)
    refine ⟨a2, i2, p2, ?_⟩
    rw [unquote_open_double.eq_def]
    simp only [if_neg hne1, if_neg hne2]
    exact hh

theorem unterminated_from_single_none {cs : List Char} (h : sq_rest cs = none) :
    unterminated_from_single cs = true := by
  induction cs with
  | nil => rw [unterminated_from_single.eq_def]
  | cons c cs ih =>
    rw [sq_rest] at h
    rw [unterminated_from_single.eq_def]
    dsimp only
    by_cases hc : c = squote
    · rw [if_pos hc] at h
      exact absurd h (by simp)
    · rw [if_neg hc] at h
      rw [if_neg hc]
      exact ih h

theorem unterminated_from_single_some {cs r : List Char} (h : sq_rest cs = some r) :
    unterminated_from_single cs = has_unterminated_quote r := by
  induction cs with
  | nil => simp [sq_rest] at h
  | cons c cs ih =>
    rw [sq_rest] at h
    rw [unterminated_from_single.eq_def]
    dsimp only
    by_cases hc : c = squote
    · rw [if_pos hc] at h
      simp only [Option.some.injEq] at h
      rw [if_pos hc, h]
    · rw [if_neg hc] at h
      rw [if_neg hc]
      exact ih h

theorem unterminated_from_double_none {cs : List Char} (h : dq_rest cs = none) :
    unterminated_from_double cs = true := by
  induction cs using dq_rest.induct with
  | case1 => rw [unterminated_from_double.eq_def]
  | case2 cs2 =>
    rw [dq_rest.eq_def] at h
    simp at h
  | case3 =>
    rw [unterminated_from_double.eq_def]
    simp [squote]
  | case4 e es hne ih =>
    rw [dq_rest.eq_def] at h
    simp only [reduceIte] at h
    rw [unterminated_from_double.eq_def]
    simp only [reduceIte]
    exact ih h
  | case5 c cs2 hne1 hne2 ih =>
    rw [dq_rest.eq_def] at h
    simp only [if_neg hne1, if_neg hne2] at h
    rw [unterminated_from_double.eq_def]
    simp only [if_neg hne1, if_neg hne2]
    exact ih h

theorem unterminated_from_double_some {cs r : List Char} (h : dq_rest cs = some r) :
    unterminated_from_double cs = has_unterminated_quote r := by
  induction cs using dq_rest.induct with
  | case1 => simp [dq_rest] at h
  | case2 cs2 =>
    rw [dq_rest.eq_def] at h
    simp at h
    rw [unterminated_from_double.eq_def]
    simp only [reduceIte]
    rw [h]
  | case3 =>
    rw [dq_rest.eq_def] at h
    simp at h
  | case4 e es hne ih =>
    rw [dq_rest.eq_def] at h
    simp only [reduceIte] at h
    rw [unterminated_from_double.eq_def]
    simp only [reduceIte]
    exact ih h
  | case5 c cs2 hne1 hne2 ih =>
    rw [dq_rest.eq_def] at h
    simp only [if_neg hne1, if_neg hne2] at h
    rw [unterminated_from_double.eq_def]
    simp only [if_neg hne1, if_neg hne2]
    exact ih h

theorem hu_nil : has_unterminated_quote [] = false := by
  rw [has_unterminated_quote.eq_def]

theorem hu_single (cs : List Char) :
    has_unterminated_quote (squote :: cs) = unterminated_from_single cs := by
  rw [has_unterminated_quote.eq_def]
  simp only [eq_self_iff_true, ite_true]

theorem hu_double (cs : List Char) :
    has_unterminated_quote ('"' :: cs) = unterminated_from_double cs := by
  rw [has_unterminated_quote.eq_def]
  simp only [if_neg (by decide : ¬('"' : Char) = squote), eq_self_iff_true, ite_true]

theorem hu_escape_nil : has_unterminated_quote ['\\'] = false := by
  rw [has_unterminated_quote.eq_def]
  simp [squote]

theorem hu_escape_cons (e : Char) (es : List Char) :
    has_unterminated_quote ('\\' :: e :: es) = has_unterminated_quote es := by
  rw [has_unterminated_quote.eq_def]
  simp [squote]

theorem hu_plain {c : Char} {cs : List Char} (h1 : ¬c = squote) (h2 : ¬c = '"')
    (h3 : ¬c = '\\') :
    has_unterminated_quote (c :: cs) = has_unterminated_quote cs := by
  rw [has_unterminated_quote.eq_def]
  simp only [if_neg h1, if_neg h2, if_neg h3]

theorem unquote_open_escape_rest (acc : List Char) (e : Char) (es : List Char)
    (idx pos : Nat) :
    ∃ a2, unquote_open_escape acc (e :: es) idx pos = (a2, es, idx + 1, pos + e.utf8Size) := by
  rw [unquote_open_escape]
  split
  · exact ⟨acc, rfl⟩
  · exact ⟨acc ++ [e], rfl⟩

/-- A well-formed input (the input-only scan finds no unterminated quote run)
always unquotes successfully. -/
theorem unquote_loop_ok_of_no_unterminated :
    ∀ (rest : List Char), has_unterminated_quote rest = false →
    ∀ (acc : List Char) (idx pos : Nat), ∃ out, unquote_loop acc rest idx pos = .ok out := by
  suffices key : ∀ (n : Nat) (rest : List Char), rest.length ≤ n →
      has_unterminated_quote rest = false →
      ∀ (acc : List Char) (idx pos : Nat), ∃ out, unquote_loop acc rest idx pos = .ok out by
    intro rest h
    exact key rest.length rest le_rfl h
  intro n
  induction n with
  | zero =>
    intro rest hlen hu acc idx pos
    match rest, hlen with
    | [], _ => exact ⟨acc, unquote_loop_nil acc idx pos⟩
  | succ n ih =>
    intro rest hlen hu acc idx pos
    match rest, hlen with
    | [], _ => exact ⟨acc, unquote_loop_nil acc idx pos⟩
    | c :: cs, hlen =>
      have hlen2 : cs.length ≤ n := by
        simp only [List.length_cons] at hlen
        omega
      by_cases h1 : c = squote
      · subst h1
        rw [hu_single] at hu
        cases hsq : sq_rest cs with
        | none =>
          rw [unterminated_from_single_none hsq] at hu
          exact absurd hu (by simp)
        | some r =>
          rw [unterminated_from_single_some hsq] at hu
          obtain ⟨a2, i2, p2, hstep⟩ :=
            single_some_of_sq_rest cs r hsq acc (idx + 1) (pos + squote.utf8Size)
          have hrlen : r.length ≤ n := by
            have := sq_rest_length hsq
            omega
          obtain ⟨out, hout⟩ := ih r hrlen hu a2 i2 p2
          exact ⟨out, by rw [unquote_loop_single_step hstep, hout]⟩
      · by_cases h2 : c = '"'
        · subst h2
          rw [hu_double] at hu
          cases hdq : dq_rest cs with
          | none =>
            rw [unterminated_from_double_none hdq] at hu
            exact absurd hu (by simp)
          | some r =>
            rw [unterminated_from_double_some hdq] at hu
            obtain ⟨a2, i2, p2, hstep⟩ :=
              double_some_of_dq_rest cs r hdq acc (idx + 1) (pos + Char.utf8Size '"')
            have hrlen : r.length ≤ n := by
              have := dq_rest_length hdq
              omega
            obtain ⟨out, hout⟩ := ih r hrlen hu a2 i2 p2
            exact ⟨out, by rw [unquote_loop_double_step hstep, hout]⟩
        · by_cases h3 : c = '\\'
          · subst h3
            cases cs with
            | nil =>
              refine ⟨acc, ?_⟩
              rw [unquote_loop_escape_step
                (show unquote_open_escape acc [] (idx + 1) (pos + Char.utf8Size '\\')
                  = (acc, [], idx + 1, pos + Char.utf8Size '\\') from by
                    rw [unquote_open_escape])]
              exact unquote_loop_nil acc _ _
            | cons e es =>
              rw [hu_escape_cons] at hu
              obtain ⟨a2, hstep⟩ :=
                unquote_open_escape_rest acc e es (idx + 1) (pos + Char.utf8Size '\\')
              have heslen : es.length ≤ n := by
                simp only [List.length_cons] at hlen2
                omega
              obtain ⟨out, hout⟩ := ih es heslen hu a2 (idx + 1 + 1)
                (pos + Char.utf8Size '\\' + e.utf8Size)
              exact ⟨out, by rw [unquote_loop_escape_step hstep, hout]⟩
          · rw [hu_plain h1 h2 h3] at hu
            obtain ⟨out, hout⟩ := ih cs hlen2 hu (acc ++ [c]) (idx + 1) (pos + c.utf8Size)
            exact ⟨out, by rw [unquote_loop_plain_step h1 h2 h3, hout]⟩

/-- An input on which the input-only scan finds an unterminated quote run
always makes unquote fail. -/
theorem unquote_loop_err_of_unterminated :
    ∀ (rest : List Char), has_unterminated_quote rest = true →
    ∀ (acc : List Char) (idx pos : Nat), ∃ e, unquote_loop acc rest idx pos = .error e := by
  suffices key : ∀ (n : Nat) (rest : List Char), rest.length ≤ n →
      has_unterminated_quote rest = true →
      ∀ (acc : List Char) (idx pos : Nat), ∃ e, unquote_loop acc rest idx pos = .error e by
    intro rest h
    exact key rest.length rest le_rfl h
  intro n
  induction n with
  | zero =>
    intro rest hlen hu acc idx pos
    match rest, hlen, hu with
    | [], _, hu => exact absurd (hu_nil.symm.trans hu) (by simp)
  | succ n ih =>
    intro rest hlen hu acc idx pos
    match rest, hlen, hu with
    | [], _, hu => exact absurd (hu_nil.symm.trans hu) (by simp)
    | c :: cs, hlen, hu =>
      have hlen2 : cs.length ≤ n := by
        simp only [List.length_cons] at hlen
        omega
      by_cases h1 : c = squote
      · subst h1
        rw [hu_single] at hu
        cases hsq : sq_rest cs with
        | none =>
          refine ⟨.UnterminatedSingleQuote idx pos, ?_⟩
          exact unquote_loop_single_fail
            (unquote_open_single_none_iff.mpr (sq_rest_none_iff.mp hsq))
        | some r =>
          rw [unterminated_from_single_some hsq] at hu
          obtain ⟨a2, i2, p2, hstep⟩ :=
            single_some_of_sq_rest cs r hsq acc (idx + 1) (pos + squote.utf8Size)
          have hrlen : r.length ≤ n := by
            have := sq_rest_length hsq
            omega
          obtain ⟨e, herr⟩ := ih r hrlen hu a2 i2 p2
          exact ⟨e, by rw [unquote_loop_single_step hstep, herr]⟩
      · by_cases h2 : c = '"'
        · subst h2
          rw [hu_double] at hu
          cases hdq : dq_rest cs with
          | none =>
            refine ⟨.UnterminatedDoubleQuote idx pos, ?_⟩
            exact unquote_loop_double_fail
              (unquote_open_double_none_iff.mpr (dq_rest_none_iff_terminates.mp hdq))
          | some r =>
            rw [unterminated_from_double_some hdq] at hu
            obtain ⟨a2, i2, p2, hstep⟩ :=
              double_some_of_dq_rest cs r hdq acc (idx + 1) (pos + Char.utf8Size '"')
            have hrlen : r.length ≤ n := by
              have := dq_rest_length hdq
              omega
            obtain ⟨e, herr⟩ := ih r hrlen hu a2 i2 p2
            exact ⟨e, by rw [unquote_loop_double_step hstep, herr]⟩
        · by_cases h3 : c = '\\'
          · subst h3
            cases cs with
            | nil => exact absurd (hu_escape_nil.symm.trans hu) (by simp)
            | cons e es =>
              rw [hu_escape_cons] at hu
              obtain ⟨a2, hstep⟩ :=
                unquote_open_escape_rest acc e es (idx + 1) (pos + Char.utf8Size '\\')
              have heslen : es.length ≤ n := by
                simp only [List.length_cons] at hlen2
                omega
              obtain ⟨e2, herr⟩ := ih es heslen hu a2 (idx + 1 + 1)
                (pos + Char.utf8Size '\\' + e.utf8Size)
              exact ⟨e2, by rw [unquote_loop_escape_step hstep, herr]⟩
          · rw [hu_plain h1 h2 h3] at hu
            obtain ⟨e2, herr⟩ := ih cs hlen2 hu (acc ++ [c]) (idx + 1) (pos + c.utf8Size)
            exact ⟨e2, by rw [unquote_loop_plain_step h1 h2 h3, herr]⟩

/-- C9: unquote returns an error if and only if the input contains an
unterminated single-quote or double-quote sequence, as judged by the
input-only three-mode scan `has_unterminated_quote` (so malformed or unknown
escape sequences never cause an error: failure depends solely on quote runs);
the error is always one of exactly the two variants UnterminatedSingleQuote
and UnterminatedDoubleQuote; inputs free of both quote characters, whatever
escape sequences they hold, always succeed; and on error no output string,
partial or otherwise, is returned to the caller. -/
theorem C9_error_taxonomy : ∀ s : List Char,
    ((∃ e, unquote s = .error e) ↔ has_unterminated_quote s = true) ∧
    (∀ e, unquote s = .error e →
      (∃ i p, e = .UnterminatedSingleQuote i p) ∨ (∃ i p, e = .UnterminatedDoubleQuote i p)) ∧
    (squote ∉ s → '"' ∉ s → ∃ out, unquote s = .ok out) ∧
    (∀ e, unquote s = .error e → ∀ out, ¬ unquote s = .ok out) := by
  intro s
  refine ⟨⟨?_, ?_⟩, ?_, ?_, ?_⟩
  · rintro ⟨e, he⟩
    cases hq : has_unterminated_quote s with
    | true => rfl
    | false =>
      obtain ⟨out, hout⟩ := unquote_loop_ok_of_no_unterminated s hq [] 0 0
      rw [unquote, hout] at he
      exact absurd he (by simp)
  · intro hu
    obtain ⟨e, he⟩ := unquote_loop_err_of_unterminated s hu [] 0 0
    exact ⟨e, by rw [unquote]; exact he⟩
  · intro e he
    cases e with
    | UnterminatedSingleQuote i p => exact Or.inl ⟨i, p, rfl⟩
    | UnterminatedDoubleQuote i p => exact Or.inr ⟨i, p, rfl⟩
  · intro hs hd
    simpa [unquote] using unquote_loop_noquote_ok s hs hd [] 0 0
  · intro e he out hok
    rw [he] at hok
    exact absurd hok (by simp)

theorem C9_error_taxonomy_witness :
    (has_unterminated_quote [squote, 'a'] = true ∧ ∃ e, unquote [squote, 'a'] = .error e) ∧
    (has_unterminated_quote ['\\', 'q'] = false ∧ ∃ out, unquote ['\\', 'q'] = .ok out) := by
  refine ⟨⟨by decide, ?_⟩, ⟨by decide, ?_⟩⟩
  · exact ((C9_error_taxonomy [squote, 'a']).1).mpr (by decide)
  · exact (C9_error_taxonomy ['\\', 'q']).2.2.1 (by decide) (by decide)
